import Mathlib

/-!
Verification of the GrooveTask data-consistency core.

This file gives a shallow embedding of the server-side synchronization
layer of the GrooveTask repository (the express + Redis backend in
`src/api/index.ts`, final revision starting after the first
`export default app`, together with the client-side counter logic in
`src/App.tsx`), and proves or refutes the properties claimed about it.

Modelling conventions:
  * Redis string keys, hash fields and sets are modelled as association
    lists `List (String × α)` and `List String`; `SET` is `aset`
    (replace-in-place or append, exactly the JS `Map.set` / Redis
    `HSET` field semantics), `SET ... NX` is a conditional insert,
    `DEL` / `HDEL` are filters.
  * JavaScript `toLowerCase()` and `includes` are modelled character
    by character (`lowerStr`, `strHas`) so that the kernel can evaluate
    them on concrete inputs.
  * Each HTTP handler becomes a pure function from the relevant store
    state and request data to a response and the successor state.
    A Redis pipeline is one atomic step of that function.
-/

namespace GrooveTask

/-- JS `String.prototype.toLowerCase()` (ASCII suffices for this code). -/
def lowerStr (s : String) : String := String.mk (s.data.map Char.toLower)

/-- JS `String.prototype.includes(c)` for one character. -/
def strHas (s : String) (c : Char) : Bool := s.data.contains c

/-! ### Association-list primitives (Redis hashes / JS Map) -/

/-- Lookup of a key in an association list (Redis `GET`/`HGET`, JS `Map.get`). -/
def alookup {α : Type} : List (String × α) → String → Option α
  | [], _ => none
  | p :: rest, k => if p.1 == k then some p.2 else alookup rest k

/-- Unconditional write (Redis `SET`/`HSET` on one field, JS `Map.set`):
replaces the value of an existing key in place, otherwise appends. -/
def aset {α : Type} : List (String × α) → String → α → List (String × α)
  | [], k, v => [(k, v)]
  | p :: rest, k, v => if p.1 == k then (k, v) :: rest else p :: aset rest k v

/-- A batch of writes, applied left to right (Redis `HSET` with a map of
field updates, or a pipeline of `SET`s). -/
def asetAll {α : Type} (m : List (String × α)) (ps : List (String × α)) :
    List (String × α) :=
  ps.foldl (fun acc p => aset acc p.1 p.2) m

/-- Deletion of a batch of keys (Redis `HDEL key f1 f2 ...`). -/
def adelList {α : Type} (m : List (String × α)) (ks : List String) :
    List (String × α) :=
  m.filter (fun p => !(ks.contains p.1))

theorem alookup_nil {α : Type} (k : String) : alookup ([] : List (String × α)) k = none := rfl

theorem alookup_aset_self {α : Type} (m : List (String × α)) (k : String) (v : α) :
    alookup (aset m k v) k = some v := by
  induction m with
  | nil => simp [aset, alookup]
  | cons p rest ih =>
    by_cases h : p.1 = k
    · simp [aset, h, alookup]
    · have hb : (p.1 == k) = false := by simp [h]
      simp [aset, hb, alookup, ih]

theorem alookup_aset_ne {α : Type} (m : List (String × α)) (k k' : String) (v : α)
    (h : k' ≠ k) : alookup (aset m k v) k' = alookup m k' := by
  have hk : (k == k') = false := beq_eq_false_iff_ne.mpr (Ne.symm h)
  induction m with
  | nil => simp [aset, alookup, hk]
  | cons p rest ih =>
    by_cases hp : p.1 = k
    · have hp' : (p.1 == k') = false := by rw [hp]; exact hk
      have hb : (p.1 == k) = true := by simp [hp]
      simp [aset, hb, alookup, hk, hp']
    · have hb : (p.1 == k) = false := by simp [hp]
      by_cases hq : p.1 = k'
      · have hb' : (p.1 == k') = true := by simp [hq]
        simp [aset, hb, alookup, hb']
      · have hb' : (p.1 == k') = false := by simp [hq]
        simp [aset, hb, alookup, hb', ih]

theorem alookup_isSome_aset {α : Type} (m : List (String × α)) (k k' : String) (v : α)
    (h : (alookup (aset m k v) k').isSome = true) :
    k' = k ∨ (alookup m k').isSome = true := by
  by_cases hk : k' = k
  · exact Or.inl hk
  · right; rwa [alookup_aset_ne m k k' v hk] at h

/-- A key is written by a batch only if it occurs among the batch keys. -/
theorem alookup_isSome_asetAll {α : Type} (m : List (String × α))
    (ps : List (String × α)) (k : String)
    (h : (alookup (asetAll m ps) k).isSome = true) :
    k ∈ ps.map Prod.fst ∨ (alookup m k).isSome = true := by
  induction ps generalizing m with
  | nil => exact Or.inr h
  | cons p rest ih =>
    rcases ih (aset m p.1 p.2) h with hk | hs
    · exact Or.inl (List.mem_cons_of_mem _ hk)
    · rcases alookup_isSome_aset m p.1 k p.2 hs with rfl | hs'
      · exact Or.inl (List.mem_cons_self _ _)
      · exact Or.inr hs'

theorem alookup_asetAll_not_mem {α : Type} (m : List (String × α))
    (ps : List (String × α)) (k : String) (h : k ∉ ps.map Prod.fst) :
    alookup (asetAll m ps) k = alookup m k := by
  induction ps generalizing m with
  | nil => rfl
  | cons p rest ih =>
    have h1 : k ∉ rest.map Prod.fst := fun hk => h (List.mem_cons_of_mem _ hk)
    have h2 : k ≠ p.1 := fun hk => h (hk ▸ List.mem_cons_self _ _)
    rw [asetAll, List.foldl_cons]
    calc alookup (asetAll (aset m p.1 p.2) rest) k
        = alookup (aset m p.1 p.2) k := ih (aset m p.1 p.2) h1
      _ = alookup m k := alookup_aset_ne m p.1 k p.2 h2

/-- A batch with distinct keys stores every one of its pairs. -/
theorem alookup_asetAll_mem {α : Type} (m : List (String × α))
    (ps : List (String × α)) (k : String) (v : α)
    (hnd : (ps.map Prod.fst).Nodup) (hmem : (k, v) ∈ ps) :
    alookup (asetAll m ps) k = some v := by
  induction ps generalizing m with
  | nil => cases hmem
  | cons p rest ih =>
    rw [asetAll, List.foldl_cons]
    rcases List.mem_cons.mp hmem with rfl | hmem'
    · have hk : (k : String) ∉ rest.map Prod.fst := by
        have := hnd
        simp only [List.map_cons, List.nodup_cons] at this
        exact this.1
      rw [show rest.foldl (fun acc p => aset acc p.1 p.2) (aset m k v)
            = asetAll (aset m k v) rest from rfl,
        alookup_asetAll_not_mem _ _ _ hk, alookup_aset_self]
    · exact ih (aset m p.1 p.2) (by
        simp only [List.map_cons, List.nodup_cons] at hnd
        exact hnd.2) hmem'

theorem aset_of_not_mem_keys {α : Type} (m : List (String × α)) (k : String) (v : α)
    (h : k ∉ m.map Prod.fst) : aset m k v = m ++ [(k, v)] := by
  induction m with
  | nil => rfl
  | cons p rest ih =>
    have h1 : p.1 ≠ k := fun hk => h (by simp [hk])
    have h2 : k ∉ rest.map Prod.fst := fun hk => h (List.mem_cons_of_mem _ hk)
    simp [aset, h1, ih h2]

theorem alookup_filter_ne_self {α : Type} (m : List (String × α)) (k : String) :
    alookup (m.filter (fun p => p.1 != k)) k = none := by
  induction m with
  | nil => rfl
  | cons p rest ih =>
    by_cases hp : p.1 = k
    · simpa [List.filter_cons, hp] using ih
    · have hb : (p.1 == k) = false := by simp [hp]
      simp [List.filter_cons, hb, alookup, ih, hp]

/-! ## C1. Identity store: atomic username claims and releases

`generateAndClaimUniqueUsername` (src/api/index.ts, final revision,
lines 662-678) claims a username with `redis.set("username:" ++ name, uid,
nx: true)`; the username change in `POST /api/user/settings` (lines
885-891) uses the same `NX` claim and releases the previous name with
`redis.del`.  A state of the `username:*` key space is a list of
(name, uid) pairs; the two primitives are the only operations that touch
it, and any interleaving of concurrent requests is some sequence of these
atomic operations. -/

/-- The two atomic primitives the identity store uses on the
`username:* → userId` key space. -/
inductive IdOp : Type
  | claim (name uid : String)
  | release (name : String)

/-- One atomic step: `claim` is Redis `SET ... NX` (a no-op when the key
is already present), `release` is Redis `DEL`. -/
def applyIdOp (s : List (String × String)) : IdOp → List (String × String)
  | .claim name uid => if s.any (fun p => p.1 == name) then s else (name, uid) :: s
  | .release name => s.filter (fun p => p.1 != name)

/-- Run a sequence of claim/release operations from the empty key space. -/
def runIdOps (ops : List IdOp) : List (String × String) :=
  ops.foldl applyIdOp []

theorem applyIdOp_keys_nodup (s : List (String × String)) (op : IdOp)
    (h : (s.map Prod.fst).Nodup) : ((applyIdOp s op).map Prod.fst).Nodup := by
  cases op with
  | claim name uid =>
    by_cases hc : s.any (fun p => p.1 == name)
    · simpa [applyIdOp, hc] using h
    · have hnm : name ∉ s.map Prod.fst := by
        intro hmem
        rcases List.mem_map.mp hmem with ⟨p, hp, hfst⟩
        exact hc (List.any_eq_true.mpr ⟨p, hp, by simp [hfst]⟩)
      simp [applyIdOp, hc, List.nodup_cons, hnm, h]
  | release name =>
    have hsub : ((s.filter (fun p => p.1 != name)).map Prod.fst).Sublist
        (s.map Prod.fst) := (List.filter_sublist _).map Prod.fst
    exact (h.sublist hsub)

theorem runIdOps_keys_nodup (ops : List IdOp) : ((runIdOps ops).map Prod.fst).Nodup := by
  suffices h : ∀ s : List (String × String), (s.map Prod.fst).Nodup →
      ((ops.foldl applyIdOp s).map Prod.fst).Nodup by
    exact h [] (by simp)
  induction ops with
  | nil => intro s hs; simpa using hs
  | cons op rest ih =>
    intro s hs
    exact ih (applyIdOp s op) (applyIdOp_keys_nodup s op hs)

theorem nodup_keys_unique_value {α : Type} (l : List (String × α)) (k : String)
    (a b : α) (hnd : (l.map Prod.fst).Nodup)
    (ha : (k, a) ∈ l) (hb : (k, b) ∈ l) : a = b := by
  induction l with
  | nil => cases ha
  | cons p rest ih =>
    simp only [List.map_cons, List.nodup_cons] at hnd
    rcases List.mem_cons.mp ha with rfl | ha'
    · rcases List.mem_cons.mp hb with hb0 | hb'
      · exact congrArg Prod.snd hb0.symm
      · exact absurd (List.mem_map.mpr ⟨(k, b), hb', rfl⟩) hnd.1
    · rcases List.mem_cons.mp hb with rfl | hb'
      · exact absurd (List.mem_map.mpr ⟨(k, a), ha', rfl⟩) hnd.1
      · exact ih hnd.2 ha' hb'

/-- C1: at every state of the username key space reachable by any
sequence (hence any interleaving) of atomic `SET NX` claims and `DEL`
releases, a username maps to at most one user id.  In particular, in the
concurrent-rename scenario at most one party can hold a freed name: two
simultaneous owners of the same name would contradict this theorem. -/
theorem username_maps_to_at_most_one_uid (ops : List IdOp) (name u v : String)
    (hu : (name, u) ∈ runIdOps ops) (hv : (name, v) ∈ runIdOps ops) : u = v :=
  nodup_keys_unique_value (runIdOps ops) name u v (runIdOps_keys_nodup ops) hu hv

/-- The concurrent-rename scenario: user A (id "A") owns `alice`, renames
to `bob` (claim `bob`, then release `alice`), and user B (id "B") claims
the freed `alice`; B is the unique final owner of `alice`. -/
def renameScenario : List IdOp :=
  [IdOp.claim "alice" "A", IdOp.claim "bob" "A",
   IdOp.release "alice", IdOp.claim "alice" "B"]

theorem username_maps_to_at_most_one_uid_witness :
    ("alice", "B") ∈ runIdOps renameScenario ∧ "B" = "B" :=
  ⟨by decide,
   username_maps_to_at_most_one_uid renameScenario "alice" "B" "B"
     (by decide) (by decide)⟩

/-! ## Task collection store

Embeds the final revision of the personal task helpers in
`src/api/index.ts`: `getTasks` (lines 680-712) and `saveTasks`
(lines 714-745). -/

/-- `'simple' | 'counter'` (src/api/index.ts line 586). -/
inductive TaskType : Type
  | simple
  | counter
deriving DecidableEq, Repr

/-- One entry of a counter task's increment log. -/
structure LogEntry where
  id : String
  timestamp : Nat
deriving DecidableEq, Repr

/-- The backend `Task` interface (src/api/index.ts lines 583-595);
optional JS fields become `Option`. -/
structure Task where
  id : String
  groupId : Option String := none
  type : Option TaskType := none
  title : String := ""
  description : String := ""
  isCompleted : Bool := false
  completedAt : Option Nat := none
  count : Option Nat := none
  log : Option (List LogEntry) := none
  createdAt : Nat := 0
  updatedBy : Option String := none
deriving DecidableEq, Repr

/-- The contents of the `data:tasks:<uid>` hash. -/
abbrev TaskMap := List (String × Task)

/-- The field cleaning at the top of `saveTasks` (lines 716-726):
`type: t.type || 'simple'`, `count: typeof t.count === 'number' ? t.count : 0`,
`log: Array.isArray(t.log) ? t.log : []`; `groupId`/`updatedBy` are dropped. -/
def cleanTask (t : Task) : Task :=
  { id := t.id
    type := some (t.type.getD TaskType.simple)
    title := t.title
    description := t.description
    isCompleted := t.isCompleted
    completedAt := t.completedAt
    count := some (t.count.getD 0)
    log := some (t.log.getD [])
    createdAt := t.createdAt }

/-- Shape of the stored collection, as discriminated by `redis.type`:
`vacant` is Redis type `'none'` (key absent), `legacy` the old
single-JSON-blob `'string'` shape, `hash` the id-keyed `'hash'` shape. -/
inductive TaskData : Type
  | vacant
  | legacy (blob : List Task)
  | hash (m : TaskMap)
deriving DecidableEq, Repr

/-- A task collection: the `data:tasks:<uid>` key plus the separately
stored `data:tasks:order:<uid>` list (`none` when the order key is absent). -/
structure Collection where
  data : TaskData
  order : Option (List String)
deriving DecidableEq, Repr

/-- The comparator `(a, b) => a.createdAt - b.createdAt`. -/
def createdLe (a b : Task) : Prop := a.createdAt ≤ b.createdAt

instance : DecidableRel createdLe := fun a b => Nat.decLe a.createdAt b.createdAt

instance : IsTotal Task createdLe := ⟨fun a b => Nat.le_total a.createdAt b.createdAt⟩

instance : IsTrans Task createdLe := ⟨fun _ _ _ hab hbc => Nat.le_trans hab hbc⟩

/-- JS `tasks.sort((a, b) => a.createdAt - b.createdAt)` (a stable sort
by creation timestamp), modelled by insertion sort. -/
def sortByCreated (ts : List Task) : List Task := List.insertionSort createdLe ts

/-- JS `new Map(tasks.map(t => [t.id, t]))` (line 698): later duplicate
ids overwrite earlier ones in place. -/
def jsMapOf (ts : List Task) : TaskMap := ts.foldl (fun acc t => aset acc t.id t) []

/-- The order walk of `getTasks` (lines 700-706): emit each referenced
task that is still in the map, deleting it from the map as it is emitted
so that what remains afterwards are the orphans, in map order. -/
def emitWalk : List String → TaskMap → List Task × TaskMap
  | [], m => ([], m)
  | oid :: rest, m =>
    match m.find? (fun p => p.1 == oid) with
    | some p =>
      let r := emitWalk rest (m.eraseP (fun q => q.1 == oid))
      (p.2 :: r.1, r.2)
    | none => emitWalk rest m

/-- `getTasks` (final revision, src/api/index.ts lines 680-712).
Only the `'hash'` shape produces tasks; with an order list present the
order walk runs and the remaining orphans are appended in map order
(line 707, `[...sortedTasks, ...Array.from(taskMap.values())]`);
with no order key the tasks are sorted by `createdAt` (line 709).
Any other shape (including the legacy blob) yields `[]`.  The state is
returned unchanged: this revision performs no writes on read. -/
def getTasksF (c : Collection) : List Task × Collection :=
  match c.data with
  | TaskData.hash m =>
    let tasks := m.map Prod.snd
    match c.order with
    | some order =>
      let r := emitWalk order (jsMapOf tasks)
      (r.1 ++ r.2.map Prod.snd, c)
    | none => (sortByCreated tasks, c)
  | _ => ([], c)

/-- `if (type === 'string') await redis.del(key)` (line 731). -/
def stripLegacy : TaskData → TaskData
  | TaskData.legacy _ => TaskData.vacant
  | d => d

/-- The hash fields visible to `redis.hkeys`/`hdel`/`hset`. -/
def currentHash : TaskData → TaskMap
  | TaskData.hash m => m
  | _ => []

/-- The sync strategy of `saveTasks` (lines 733-744): delete every
stored id absent from the submitted list, then write every submitted
task, as one pipeline. -/
def reconcileMap (current : TaskMap) (cleanTasks : List Task) : TaskMap :=
  let currentIds := current.map Prod.fst
  let newIds := cleanTasks.map Task.id
  let idsToDelete := currentIds.filter (fun i => !(newIds.contains i))
  asetAll (adelList current idsToDelete) (cleanTasks.map (fun t => (t.id, t)))

/-- `saveTasks` (final revision, src/api/index.ts lines 714-745).
`if (cleanTasks.length === 0 && !forceEmpty) return;` is the empty-save
guard; a hash left with no fields does not exist in Redis, hence the
final normalisation to `vacant`. -/
def saveTasksF (c : Collection) (tasks : List Task) (forceEmpty : Bool) : Collection :=
  let cleanTasks := tasks.map cleanTask
  if cleanTasks.isEmpty && !forceEmpty then c
  else
    let m2 := reconcileMap (currentHash (stripLegacy c.data)) cleanTasks
    { c with data := if m2.isEmpty then TaskData.vacant else TaskData.hash m2 }

theorem adelList_self_keys {α : Type} (m : List (String × α)) :
    adelList m (m.map Prod.fst) = [] := by
  rw [adelList, List.filter_eq_nil_iff]
  intro p hp
  simp [List.mem_map_of_mem Prod.fst hp]

/-- C3: saving an empty task list without `forceEmpty` leaves the stored
collection exactly as it was, while saving an empty list with
`forceEmpty = true` clears the stored task mapping (the order key is
never touched by `saveTasks`); this holds for every prior stored state. -/
theorem saveTasks_empty_guard (c : Collection) :
    saveTasksF c [] false = c ∧
    (saveTasksF c [] true).data = TaskData.vacant ∧
    (saveTasksF c [] true).order = c.order := by
  refine ⟨by simp [saveTasksF], ?_, ?_⟩ <;>
    simp [saveTasksF, reconcileMap, asetAll, adelList_self_keys]

theorem alookup_isSome_mem_keys {α : Type} (m : List (String × α)) (k : String)
    (h : (alookup m k).isSome = true) : k ∈ m.map Prod.fst := by
  induction m with
  | nil => simp [alookup] at h
  | cons p rest ih =>
    by_cases hp : p.1 = k
    · simp [hp]
    · have hb : (p.1 == k) = false := by simp [hp]
      simp only [alookup, hb, Bool.false_eq_true, if_false] at h
      exact List.mem_cons_of_mem _ (ih h)

/-- A key surviving the reconciliation must be the id of a submitted task. -/
theorem reconcile_isSome_newIds (cur : TaskMap) (cts : List Task) (k : String)
    (h : (alookup (reconcileMap cur cts) k).isSome = true) :
    k ∈ cts.map Task.id := by
  rw [show reconcileMap cur cts
      = asetAll (adelList cur ((cur.map Prod.fst).filter
          (fun i => !((cts.map Task.id).contains i))))
        (cts.map (fun t => (t.id, t))) from rfl] at h
  rcases alookup_isSome_asetAll _ _ _ h with hk | hs
  · rw [List.map_map] at hk
    exact hk
  · have hkm := alookup_isSome_mem_keys _ _ hs
    rcases List.mem_map.mp hkm with ⟨p, hp, rfl⟩
    have hpf := List.mem_filter.mp hp
    by_contra hkn
    have hmemD : p.1 ∈ (cur.map Prod.fst).filter
        (fun i => !((cts.map Task.id).contains i)) :=
      List.mem_filter.mpr ⟨List.mem_map_of_mem _ hpf.1, by simpa using hkn⟩
    have hcD : (((cur.map Prod.fst).filter
        (fun i => !((cts.map Task.id).contains i))).contains p.1) = true := by
      simpa using hmemD
    have h2 := hpf.2
    rw [hcD] at h2
    simp at h2

/-- C5: for every non-empty submitted task list (with distinct ids, the
hash-field invariant), `saveTasks` leaves the stored mapping holding
exactly the submitted tasks keyed by id: every submitted task can be
looked up (as its cleaned record), every surviving key is a submitted
id, and the order list is untouched.  Deletions and upserts happen in
the one `reconcileMap` step, the model of the single Redis pipeline. -/
theorem saveTasks_reconciles (c : Collection) (ts : List Task)
    (hne : ts ≠ []) (hnd : (ts.map Task.id).Nodup) :
    ∃ m2 : TaskMap,
      (saveTasksF c ts false).data = TaskData.hash m2 ∧
      (saveTasksF c ts false).order = c.order ∧
      (∀ t ∈ ts, alookup m2 t.id = some (cleanTask t)) ∧
      (∀ k : String, (alookup m2 k).isSome = true → k ∈ ts.map Task.id) := by
  have hid : (ts.map cleanTask).map Task.id = ts.map Task.id := by
    rw [List.map_map]
    rfl
  have hpairs : ((ts.map cleanTask).map (fun t => (t.id, t))).map Prod.fst
      = ts.map Task.id := by
    rw [List.map_map]
    exact hid
  refine ⟨reconcileMap (currentHash (stripLegacy c.data)) (ts.map cleanTask),
    ?_, ?_, ?_, ?_⟩
  case refine_3 =>
    intro t ht
    rw [show reconcileMap (currentHash (stripLegacy c.data)) (ts.map cleanTask)
        = asetAll (adelList (currentHash (stripLegacy c.data))
            (((currentHash (stripLegacy c.data)).map Prod.fst).filter
              (fun i => !(((ts.map cleanTask).map Task.id).contains i))))
          ((ts.map cleanTask).map (fun t => (t.id, t))) from rfl]
    exact alookup_asetAll_mem _ _ t.id (cleanTask t) (hpairs ▸ hnd)
      (List.mem_map.mpr ⟨cleanTask t, List.mem_map_of_mem _ ht, rfl⟩)
  case refine_4 =>
    intro k hk
    have := reconcile_isSome_newIds _ _ _ hk
    rwa [hid] at this
  all_goals {
    have hg : ((ts.map cleanTask).isEmpty && !false) = false := by
      cases ts with
      | nil => exact absurd rfl hne
      | cons a l => simp
    have hne2 : (reconcileMap (currentHash (stripLegacy c.data))
        (ts.map cleanTask)).isEmpty = false := by
      obtain ⟨t, ht⟩ := List.exists_mem_of_ne_nil ts hne
      have hl : alookup (reconcileMap (currentHash (stripLegacy c.data))
          (ts.map cleanTask)) t.id = some (cleanTask t) := by
        rw [show reconcileMap (currentHash (stripLegacy c.data)) (ts.map cleanTask)
            = asetAll (adelList (currentHash (stripLegacy c.data))
                (((currentHash (stripLegacy c.data)).map Prod.fst).filter
                  (fun i => !(((ts.map cleanTask).map Task.id).contains i))))
              ((ts.map cleanTask).map (fun t => (t.id, t))) from rfl]
        exact alookup_asetAll_mem _ _ t.id (cleanTask t) (hpairs ▸ hnd)
          (List.mem_map.mpr ⟨cleanTask t, List.mem_map_of_mem _ ht, rfl⟩)
      cases hmm : reconcileMap (currentHash (stripLegacy c.data)) (ts.map cleanTask) with
      | nil => rw [hmm] at hl; simp [alookup] at hl
      | cons a l => simp
    simp only [saveTasksF, hg, Bool.false_eq_true, if_false, hne2]
  }

def wTask1 : Task := { id := "t1", createdAt := 10 }

def wTask2 : Task := { id := "t2", createdAt := 20 }

def wTaskOld : Task := { id := "old9", createdAt := 1 }

def wCol : Collection := ⟨TaskData.hash [("old9", wTaskOld)], some ["old9"]⟩

theorem saveTasks_reconciles_witness :
    ([wTask1, wTask2] ≠ ([] : List Task)) ∧
    (([wTask1, wTask2].map Task.id).Nodup) ∧
    (∃ m2 : TaskMap,
      (saveTasksF wCol [wTask1, wTask2] false).data = TaskData.hash m2 ∧
      (saveTasksF wCol [wTask1, wTask2] false).order = wCol.order ∧
      (∀ t ∈ [wTask1, wTask2], alookup m2 t.id = some (cleanTask t)) ∧
      (∀ k : String, (alookup m2 k).isSome = true →
          k ∈ [wTask1, wTask2].map Task.id)) :=
  ⟨by decide, by decide,
   saveTasks_reconciles wCol [wTask1, wTask2] (by decide) (by decide)⟩

theorem foldl_aset_eq_append (ts : List Task) : ∀ acc : TaskMap,
    (acc.map Prod.fst ++ ts.map Task.id).Nodup →
    ts.foldl (fun a t => aset a t.id t) acc = acc ++ ts.map (fun t => (t.id, t)) := by
  induction ts with
  | nil => intro acc _; simp
  | cons t rest ih =>
    intro acc h
    have hnd := List.nodup_append.mp h
    have hnotin : t.id ∉ acc.map Prod.fst := by
      intro hmem
      exact hnd.2.2 hmem (List.mem_cons_self _ _)
    rw [List.foldl_cons, aset_of_not_mem_keys acc t.id t hnotin]
    have h' : ((acc ++ [(t.id, t)]).map Prod.fst ++ rest.map Task.id).Nodup := by
      rw [List.map_append, List.append_assoc]
      simpa using h
    rw [ih (acc ++ [(t.id, t)]) h', List.append_assoc]
    rfl

/-- With distinct ids (the hash invariant) the JS `Map` built by
`getTasks` is just the pairing of each task with its id. -/
theorem jsMapOf_eq (ts : List Task) (h : (ts.map Task.id).Nodup) :
    jsMapOf ts = ts.map (fun t => (t.id, t)) := by
  have := foldl_aset_eq_append ts [] (by simpa using h)
  simpa [jsMapOf] using this

theorem cons_eraseP_perm {α : Type} (m : List (String × α)) (pr : String × α)
    (pred : String × α → Bool) (h : m.find? pred = some pr) :
    (pr :: m.eraseP pred).Perm m := by
  induction m with
  | nil => cases h
  | cons q rest ih =>
    by_cases hq : pred q
    · rw [List.find?_cons_of_pos _ hq] at h
      cases h
      rw [List.eraseP_cons_of_pos hq]
    · rw [List.find?_cons_of_neg _ hq] at h
      rw [List.eraseP_cons_of_neg hq]
      exact (List.Perm.swap q pr _).trans ((ih h).cons q)

/-- The order walk together with its leftover map is a permutation of
the input map's values: nothing is lost and nothing is duplicated. -/
theorem emitWalk_perm (order : List String) (m : TaskMap) :
    ((emitWalk order m).1 ++ (emitWalk order m).2.map Prod.snd).Perm
      (m.map Prod.snd) := by
  induction order generalizing m with
  | nil => simp [emitWalk]
  | cons oid rest ih =>
    cases hfind : m.find? (fun p => p.1 == oid) with
    | none => simpa [emitWalk, hfind] using ih m
    | some pr =>
      have hperm := cons_eraseP_perm m pr (fun p => p.1 == oid) hfind
      have ihe := ih (m.eraseP (fun q => q.1 == oid))
      have step : ((emitWalk (oid :: rest) m).1 ++
          (emitWalk (oid :: rest) m).2.map Prod.snd)
          = pr.2 :: ((emitWalk rest (m.eraseP (fun q => q.1 == oid))).1 ++
            (emitWalk rest (m.eraseP (fun q => q.1 == oid))).2.map Prod.snd) := by
        simp [emitWalk, hfind]
      rw [step]
      exact (ihe.cons pr.2).trans (by simpa using hperm.map Prod.snd)

/-- C2 (amended): for a collection stored in id-keyed form (distinct ids,
the hash invariant), `getTasks` returns every stored task exactly once —
a permutation of the stored values — whether the order list is present
(complete, stale or incomplete) or missing, and performs no writes.
Tasks referenced by the order list are emitted first in order-list
position; when the order key is missing the result is sorted by
creation timestamp.  (Orphans appended after the order walk are NOT
sorted in this revision; see the counterexample.) -/
theorem getTasks_each_task_once (m : TaskMap) (o : List String)
    (hnd : ((m.map Prod.snd).map Task.id).Nodup) :
    ((getTasksF ⟨TaskData.hash m, some o⟩).1).Perm (m.map Prod.snd) ∧
    ((getTasksF ⟨TaskData.hash m, none⟩).1).Perm (m.map Prod.snd) ∧
    List.Sorted createdLe (getTasksF ⟨TaskData.hash m, none⟩).1 ∧
    (getTasksF ⟨TaskData.hash m, some o⟩).2 = ⟨TaskData.hash m, some o⟩ := by
  refine ⟨?_, ?_, ?_, rfl⟩
  · have hjs : jsMapOf (m.map Prod.snd)
        = (m.map Prod.snd).map (fun t => (t.id, t)) := jsMapOf_eq _ hnd
    have hperm := emitWalk_perm o (jsMapOf (m.map Prod.snd))
    have hval : (jsMapOf (m.map Prod.snd)).map Prod.snd = m.map Prod.snd := by
      rw [hjs, List.map_map]
      simp
    rw [hval] at hperm
    simpa [getTasksF] using hperm
  · simpa [getTasksF, sortByCreated] using
      List.perm_insertionSort createdLe (m.map Prod.snd)
  · simpa [getTasksF, sortByCreated] using
      List.sorted_insertionSort createdLe (m.map Prod.snd)

def wTaskP : Task := { id := "p", createdAt := 7 }

def wTaskQ : Task := { id := "q", createdAt := 4 }

theorem getTasks_each_task_once_witness :
    ((([("p", wTaskP), ("q", wTaskQ)] : TaskMap).map Prod.snd).map Task.id).Nodup ∧
    ((getTasksF ⟨TaskData.hash [("p", wTaskP), ("q", wTaskQ)], some ["q", "zz"]⟩).1).Perm
      (([("p", wTaskP), ("q", wTaskQ)] : TaskMap).map Prod.snd) :=
  ⟨by decide,
   (getTasks_each_task_once [("p", wTaskP), ("q", wTaskQ)] ["q", "zz"] (by decide)).1⟩

def tA : Task := { id := "a", createdAt := 5 }

def tB : Task := { id := "b", createdAt := 3 }

def tC : Task := { id := "c", createdAt := 1 }

/-- C2 counterexample: with stored tasks a (createdAt 5), b (createdAt 3),
c (createdAt 1) and order list ["a"], the two orphans b, c are appended
in map order — createdAt 3 before createdAt 1 — not sorted by creation
timestamp ascending as the claim states (the claim would require the
result [a, c, b]). -/
theorem getTasks_orphans_unsorted :
    (getTasksF ⟨TaskData.hash [("a", tA), ("b", tB), ("c", tC)], some ["a"]⟩).1
      = [tA, tB, tC] ∧
    ¬ List.Sorted createdLe
      (((getTasksF ⟨TaskData.hash [("a", tA), ("b", tB), ("c", tC)],
          some ["a"]⟩).1).drop 1) ∧
    (getTasksF ⟨TaskData.hash [("a", tA), ("b", tB), ("c", tC)], some ["a"]⟩).1
      ≠ [tA, tC, tB] := by
  refine ⟨by decide, ?_, by decide⟩
  decide

/-! ## C6. Legacy-blob reads in the final `getTasks` revision -/

/-- C6 counterexample: the final `getTasks` revision (src/api/index.ts
lines 680-712) has no migration branch — `redis.type` returns
`'string'`, the `hgetall` rejection is swallowed by the `.catch`, the
`type === 'hash'` test fails, and the handler returns `[]` leaving the
blob in place.  Reading a legacy collection holding the single task
`tA` therefore does not return the parsed list `[tA]`, does not write
the id-keyed shape, and does not delete the blob. -/
theorem getTasks_legacy_not_migrated :
    getTasksF ⟨TaskData.legacy [tA], none⟩ = ([], ⟨TaskData.legacy [tA], none⟩) ∧
    (getTasksF ⟨TaskData.legacy [tA], none⟩).1 ≠ [tA] := by
  exact ⟨rfl, by decide⟩

/-- C6 (amended): reading a legacy-format collection with the final
`getTasks` performs no migration at all: it returns an empty list and
leaves the stored state (legacy blob included) unchanged, so a second
read immediately afterward returns the same empty result and the stored
shape remains the legacy blob, not the id-keyed form. -/
theorem getTasks_legacy_inert (ts : List Task) (o : Option (List String)) :
    getTasksF ⟨TaskData.legacy ts, o⟩ = ([], ⟨TaskData.legacy ts, o⟩) ∧
    getTasksF (getTasksF ⟨TaskData.legacy ts, o⟩).2
      = getTasksF ⟨TaskData.legacy ts, o⟩ ∧
    (getTasksF ⟨TaskData.legacy ts, o⟩).2.data = TaskData.legacy ts :=
  ⟨rfl, rfl, rfl⟩

/-! ## Identity endpoints (final revision)

`POST /api/user/settings` (src/api/index.ts lines 878-900) and
`POST /api/auth/login` (lines 806-833). -/

/-- Per-user settings. -/
structure Settings where
  themeId : String
  soundEnabled : Bool
  language : String
deriving DecidableEq, Repr

/-- The stored `UserProfile` record (src/api/index.ts lines 597-605). -/
structure UserRec where
  id : String
  email : String
  username : String
  usernameChangeCount : Nat
  passwordHash : String
  createdAt : Nat
  settings : Settings
deriving DecidableEq, Repr

/-- The request body of `POST /api/user/settings`; absent JS fields are
`none`. -/
structure SettingsBody where
  themeId : Option String := none
  soundEnabled : Option Bool := none
  language : Option String := none
  username : Option String := none
deriving DecidableEq, Repr

/-- The `username:*` and `user:*` key spaces the settings handler touches. -/
structure IdentityState where
  usernames : List (String × String)
  users : List (String × UserRec)
deriving DecidableEq, Repr

inductive SettingsResp : Type
  | notFound
  | conflict
  | ok (settings : Settings) (username : String)
deriving DecidableEq, Repr

/-- The settings merge (lines 893-897):
`themeId: themeId || user.settings.themeId`, `soundEnabled: soundEnabled
?? user.settings.soundEnabled`, `language: language || user.settings.language`
(`||` on an absent field behaves as `getD`). -/
def mergeSettings (body : SettingsBody) (s : Settings) : Settings :=
  { themeId := body.themeId.getD s.themeId
    soundEnabled := body.soundEnabled.getD s.soundEnabled
    language := body.language.getD s.language }

/-- The tail of the handler when no username change happens: merge
settings and persist the user record. -/
def applySettingsOnly (st : IdentityState) (uid : String) (body : SettingsBody)
    (user : UserRec) : SettingsResp × IdentityState :=
  let user1 := { user with settings := mergeSettings body user.settings }
  (SettingsResp.ok user1.settings user1.username,
   { st with users := aset st.users uid user1 })

/-- `POST /api/user/settings`, final revision (lines 878-900).  On a
username change it claims the lowercased new name with `SET ... NX`,
returns 409 Conflict (before any write) when the claim fails, otherwise
deletes the old `username:*` key, bumps the change counter, merges the
settings and persists the record.  This revision performs NO format
validation and NO change-counter cap check. -/
def updateSettingsF (st : IdentityState) (uid : String) (body : SettingsBody) :
    SettingsResp × IdentityState :=
  match alookup st.users uid with
  | Option.none => (SettingsResp.notFound, st)
  | some user =>
    match body.username with
    | some newName =>
      if newName != "" && lowerStr newName != lowerStr user.username then
        if (alookup st.usernames (lowerStr newName)).isSome then
          (SettingsResp.conflict, st)
        else
          let names1 := ((lowerStr newName, uid) :: st.usernames).filter
            (fun p => p.1 != lowerStr user.username)
          let user1 := { user with
            username := newName
            usernameChangeCount := user.usernameChangeCount + 1
            settings := mergeSettings body user.settings }
          (SettingsResp.ok user1.settings user1.username,
           { usernames := names1, users := aset st.users uid user1 })
      else applySettingsOnly st uid body user
    | Option.none => applySettingsOnly st uid body user

def aliceRec : UserRec :=
  { id := "u1", email := "alice@x.com", username := "alice"
    usernameChangeCount := 3, passwordHash := "h", createdAt := 0
    settings := { themeId := "neon-blue", soundEnabled := true, language := "en" } }

def stC4 : IdentityState :=
  { usernames := [("alice", "u1")], users := [("u1", aliceRec)] }

/-- C4 counterexample: user u1 has already used all 3 username changes
(`usernameChangeCount = 3`) and requests the new name "x!", which is
both too short (2 < 3) and not alphanumeric/underscore.  The claim says
the change must be rejected (format validation and the cap of 3); the
final handler accepts it, claims "x!", and bumps the counter to 4. -/
theorem changeUsername_not_validated :
    (updateSettingsF stC4 "u1" { username := some "x!" }).1
      = SettingsResp.ok aliceRec.settings "x!" ∧
    (alookup (updateSettingsF stC4 "u1" { username := some "x!" }).2.users
        "u1").map UserRec.usernameChangeCount = some 4 ∧
    alookup (updateSettingsF stC4 "u1" { username := some "x!" }).2.usernames
        "x!" = some "u1" := by
  refine ⟨?_, ?_, ?_⟩ <;> decide

/-- C4 (amended): the final `POST /api/user/settings` performs no
server-side format validation and no change-counter cap check, but it
does claim the new username atomically before releasing the old one:
when the lowercased new name is already claimed the handler answers
Conflict with the stored state completely unchanged (the old username
is still active), and when the claim succeeds the new name maps to the
user, the old name is released, and the stored record carries the new
username with the counter incremented by one. -/
theorem changeUsername_claim_then_release (st : IdentityState)
    (uid newName : String) (user : UserRec)
    (hu : alookup st.users uid = some user)
    (hne : (newName == "") = false)
    (hdiff : (lowerStr newName == lowerStr user.username) = false) :
    ((alookup st.usernames (lowerStr newName)).isSome = true →
      updateSettingsF st uid { username := some newName }
        = (SettingsResp.conflict, st)) ∧
    (alookup st.usernames (lowerStr newName) = Option.none →
      (updateSettingsF st uid { username := some newName }).1
        = SettingsResp.ok user.settings newName ∧
      alookup (updateSettingsF st uid { username := some newName }).2.usernames
        (lowerStr newName) = some uid ∧
      alookup (updateSettingsF st uid { username := some newName }).2.usernames
        (lowerStr user.username) = Option.none ∧
      alookup (updateSettingsF st uid { username := some newName }).2.users uid
        = some { user with
                 username := newName
                 usernameChangeCount := user.usernameChangeCount + 1 }) := by
  constructor
  · intro hsome
    simp [updateSettingsF, hu, bne, hne, hdiff, hsome]
  · intro hnone
    have hmerge : mergeSettings { username := some newName } user.settings
        = user.settings := rfl
    have hnb : (lowerStr newName != lowerStr user.username) = true := by
      simp [bne, hdiff]
    refine ⟨?_, ?_, ?_, ?_⟩
    · simp [updateSettingsF, hu, bne, hne, hdiff, hnone, hmerge]
    · simp only [updateSettingsF, hu, bne, hne, hdiff, hnone]
      simp only [Bool.not_false, Bool.and_self, if_true, Option.isSome_none,
        Bool.false_eq_true, if_false, List.filter_cons]
      simp [hdiff, alookup]
    · simp only [updateSettingsF, hu, bne, hne, hdiff, hnone]
      simp only [Bool.not_false, Bool.and_self, if_true, Option.isSome_none,
        Bool.false_eq_true, if_false]
      exact alookup_filter_ne_self _ _
    · simp only [updateSettingsF, hu, bne, hne, hdiff, hnone]
      simp only [Bool.not_false, Bool.and_self, if_true, Option.isSome_none,
        Bool.false_eq_true, if_false]
      rw [alookup_aset_self]
      rw [hmerge]

def bobRec : UserRec :=
  { id := "u2", email := "b@x.co", username := "bob"
    usernameChangeCount := 0, passwordHash := "h2", createdAt := 0
    settings := { themeId := "neon-blue", soundEnabled := true, language := "en" } }

def stC4w : IdentityState :=
  { usernames := [("bob", "u2"), ("taken", "u9")], users := [("u2", bobRec)] }

theorem changeUsername_claim_then_release_witness :
    alookup stC4w.users "u2" = some bobRec ∧
    alookup (updateSettingsF stC4w "u2" { username := some "newname" }).2.usernames
      (lowerStr "newname") = some "u2" :=
  ⟨by decide,
   ((changeUsername_claim_then_release stC4w "u2" "newname" bobRec
      (by decide) (by decide) (by decide)).2 (by decide)).2.1⟩

/-! ## C8. Login timing mitigation (final revision) -/

/-- An observable cryptographic action of the login handler. -/
inductive LoginEvent : Type
  | bcryptCompare
deriving DecidableEq, Repr

inductive LoginResp : Type
  | invalidCredentials
  | okLogin (uid : String)
deriving DecidableEq, Repr

/-- Stand-in for the black-box bcrypt pair: a hash is the tag plus the
password, comparison checks the stored hash against the password. -/
def bcryptHashOf (password : String) : String := "bcrypt$" ++ password

def bcryptCheck (password hash : String) : Bool := hash == bcryptHashOf password

/-- The key spaces the final login handler reads. -/
structure AuthState where
  emails : List (String × String)
  usernames : List (String × String)
  users : List (String × UserRec)
  legacyUsers : List (String × UserRec)
deriving DecidableEq, Repr

/-- `POST /api/auth/login`, final revision (src/api/index.ts lines
806-833), with its trace of bcrypt comparisons.  An identifier with an
`@` resolves through `email:*`, otherwise through `username:*`; on
failure the legacy `user:<email>` record is consulted for an id; if
nothing resolves the handler returns 401 immediately — performing NO
hash comparison.  Only when a stored profile is found does
`bcrypt.compare` run (the `!user || !compare` short-circuit also skips
it when the profile record is missing). -/
def loginF (st : AuthState) (identifier password : String) :
    LoginResp × List LoginEvent :=
  let cleanId := lowerStr identifier
  let resolved : Option String :=
    if strHas cleanId '@' then alookup st.emails cleanId
    else alookup st.usernames cleanId
  let userId : Option String :=
    match resolved with
    | some u => some u
    | Option.none => (alookup st.legacyUsers cleanId).map UserRec.id
  match userId with
  | Option.none => (LoginResp.invalidCredentials, [])
  | some uid =>
    match alookup st.users uid with
    | Option.none => (LoginResp.invalidCredentials, [])
    | some user =>
      if bcryptCheck password user.passwordHash
      then (LoginResp.okLogin uid, [LoginEvent.bcryptCompare])
      else (LoginResp.invalidCredentials, [LoginEvent.bcryptCompare])

def u1Rec : UserRec :=
  { id := "u1", email := "a@b.co", username := "alice"
    usernameChangeCount := 0, passwordHash := bcryptHashOf "pw1", createdAt := 0
    settings := { themeId := "neon-blue", soundEnabled := true, language := "en" } }

def authSt : AuthState :=
  { emails := [("a@b.co", "u1")], usernames := [("alice", "u1")]
    users := [("u1", u1Rec)], legacyUsers := [] }

/-- C8: evaluation of the final login handler at the failing input.  A
login with the unknown username "ghost" returns InvalidCredentials with
an empty comparison trace — the handler performs no dummy-hash
comparison, unlike the earlier revisions (src/api/index.ts lines
367-371 and the types.ts revision lines 442-446, which hash and compare
a dummy before failing).  A wrong password on the existing user "alice"
does perform one comparison, so the traces — and hence the latencies —
of "unknown user" and "wrong password" are distinguishable. -/
theorem login_unknown_identifier_skips_hash :
    loginF authSt "ghost" "whatever" = (LoginResp.invalidCredentials, []) ∧
    loginF authSt "alice" "wrongpw"
      = (LoginResp.invalidCredentials, [LoginEvent.bcryptCompare]) ∧
    loginF authSt "alice" "pw1" = (LoginResp.okLogin "u1", [LoginEvent.bcryptCompare]) := by
  refine ⟨?_, ?_, ?_⟩ <;> decide

/-! ## Group-scoped handlers (src/api/index.ts lines 1135-1295) -/

/-- A chat message (src/api/index.ts lines 621-626). -/
structure ChatMsg where
  id : String
  sender : String
  text : String
  timestamp : Nat
deriving DecidableEq, Repr

/-- The state one group's handlers touch: the `group:<id>:members` set,
the `tasks:group:<id>` hash, the `tasks:group:order:<id>` key, the
`chat:<id>:messages` list, and the `user:<uid>` profiles consulted for
`updatedBy` / chat sender names (modelled as uid → username). -/
structure GroupState where
  members : List String
  tasks : TaskMap
  order : Option (List String)
  chat : List ChatMsg
  usersById : List (String × String)
deriving DecidableEq, Repr

inductive ApiResp (α : Type) : Type
  | forbidden
  | badRequest
  | okResp (a : α)
deriving DecidableEq, Repr

/-- Redis `LRANGE key (-n) (-1)` / `LTRIM key (-n) (-1)`: the last `n`
elements in stored (chronological) order. -/
def lastN {α : Type} (n : Nat) (l : List α) : List α := l.drop (l.length - n)

/-- `GET /api/groups/:id/tasks` (lines 1135-1183): membership gate,
then the hash values ordered by the order list when it is non-empty
(orphans appended in map order) and by `createdAt` otherwise. -/
def getGroupTasksF (st : GroupState) (uid : String) :
    ApiResp (List Task) × GroupState :=
  if !(st.members.contains uid) then (ApiResp.forbidden, st)
  else
    let tasks := st.tasks.map Prod.snd
    match st.order with
    | some o =>
      if o.isEmpty then (ApiResp.okResp (sortByCreated tasks), st)
      else
        let r := emitWalk o (jsMapOf tasks)
        (ApiResp.okResp (r.1 ++ r.2.map Prod.snd), st)
    | Option.none => (ApiResp.okResp (sortByCreated tasks), st)

/-- `POST /api/groups/:id/tasks` (lines 1186-1202): membership gate,
then tag `updatedBy`/`groupId` and `HSET` the task under its id. -/
def postGroupTaskF (st : GroupState) (uid gid : String) (t : Task) :
    ApiResp Task × GroupState :=
  if !(st.members.contains uid) then (ApiResp.forbidden, st)
  else
    let uname := (alookup st.usersById uid).getD "Unknown"
    let t1 := { t with updatedBy := some uname, groupId := some gid }
    (ApiResp.okResp t1, { st with tasks := aset st.tasks t.id t1 })

/-- `POST /api/groups/:id/tasks/order` (lines 1205-1216): membership
gate, then body validation, then overwrite of the order key only. -/
def postGroupOrderF (st : GroupState) (uid : String) (o : Option (List String)) :
    ApiResp Unit × GroupState :=
  if !(st.members.contains uid) then (ApiResp.forbidden, st)
  else
    match o with
    | some ord => (ApiResp.okResp (), { st with order := some ord })
    | Option.none => (ApiResp.badRequest, st)

/-- `DELETE /api/groups/:id/tasks/:taskId` (lines 1219-1228):
membership gate, then `HDEL` of the one field. -/
def deleteGroupTaskF (st : GroupState) (uid taskId : String) :
    ApiResp Unit × GroupState :=
  if !(st.members.contains uid) then (ApiResp.forbidden, st)
  else (ApiResp.okResp (), { st with tasks := st.tasks.filter (fun p => p.1 != taskId) })

/-- `GET /api/groups/:id/chat` (lines 1232-1269): a non-member receives
an empty list (deliberately not an error, lines 1239-1242); a member
receives the last 100 messages in chronological order. -/
def getGroupChatF (st : GroupState) (uid : String) :
    List ChatMsg × GroupState :=
  if !(st.members.contains uid) then ([], st)
  else (lastN 100 st.chat, st)

/-- `POST /api/groups/:id/chat` (lines 1271-1295): membership gate,
then the sender's current username is captured into the message, the
message appended, and the log trimmed to the last 500 entries. -/
def postGroupChatF (st : GroupState) (uid text msgId : String) (now : Nat) :
    ApiResp ChatMsg × GroupState :=
  if !(st.members.contains uid) then (ApiResp.forbidden, st)
  else
    let sender := (alookup st.usersById uid).getD "Unknown"
    let msg : ChatMsg := { id := msgId, sender := sender, text := text, timestamp := now }
    (ApiResp.okResp msg, { st with chat := lastN 500 (st.chat ++ [msg]) })

/-- C7: every group-scoped task and chat handler checks the membership
gate before doing anything else; for a non-member each of them returns
no group content (forbidden, or the deliberate empty chat list) and
leaves the group's state byte-for-byte unchanged, so a gated request
causes zero writes. -/
theorem membership_gate (st : GroupState) (uid gid taskId text msgId : String)
    (t : Task) (o : List String) (now : Nat)
    (h : st.members.contains uid = false) :
    getGroupTasksF st uid = (ApiResp.forbidden, st) ∧
    postGroupTaskF st uid gid t = (ApiResp.forbidden, st) ∧
    postGroupOrderF st uid (some o) = (ApiResp.forbidden, st) ∧
    deleteGroupTaskF st uid taskId = (ApiResp.forbidden, st) ∧
    getGroupChatF st uid = ([], st) ∧
    postGroupChatF st uid text msgId now = (ApiResp.forbidden, st) := by
  have h' : uid ∉ st.members := by simpa using h
  refine ⟨?_, ?_, ?_, ?_, ?_, ?_⟩ <;>
    simp [getGroupTasksF, postGroupTaskF, postGroupOrderF, deleteGroupTaskF,
      getGroupChatF, postGroupChatF, h']

def gwState : GroupState :=
  { members := ["m1"], tasks := [("x1", { id := "x1", createdAt := 2 })]
    order := none, chat := [{ id := "c1", sender := "mona", text := "hi", timestamp := 5 }]
    usersById := [("m1", "mona")] }

theorem membership_gate_witness :
    gwState.members.contains "intruder" = false ∧
    getGroupChatF gwState "intruder" = ([], gwState) :=
  ⟨by decide,
   (membership_gate gwState "intruder" "g1" "t1" "hello" "m9" { id := "t9" } [] 0
      (by decide)).2.2.2.2.1⟩

/-! ## C10. `POST /api/groups/:id/invite` (lines 963-984) -/

/-- The state the invite handler touches: `username:*`, the group's
member and invite sets, and each user's personal `user:<uid>:invites`
pending-invite index. -/
structure InviteState where
  usernames : List (String × String)
  members : List String
  invites : List String
  userInvites : List (String × List String)
deriving DecidableEq, Repr

/-- Redis `SADD` on a set of strings. -/
def saddSet (s : List String) (x : String) : List String :=
  if s.contains x then s else x :: s

/-- Redis `SADD user:<k>:invites x` (the set is created when absent). -/
def saddAssoc (m : List (String × List String)) (k x : String) :
    List (String × List String) :=
  match alookup m k with
  | some s => aset m k (saddSet s x)
  | Option.none => aset m k [x]

inductive InviteResp : Type
  | badRequest
  | notFound
  | conflict
  | okDone
deriving DecidableEq, Repr

/-- `POST /api/groups/:id/invite`, final revision (lines 963-984): body
check, username resolution (404 when unresolvable), 409 when the target
is already a member, then one pipeline adding the target to the group's
invite set and the group to the target's pending-invite index.  The
authenticated requester (`req.user.uid`) is never consulted: the
handler binds it but performs no membership or ownership check on it. -/
def inviteF (st : InviteState) (requesterId gid : String)
    (username : Option String) : InviteResp × InviteState :=
  match username with
  | Option.none => (InviteResp.badRequest, st)
  | some name =>
    if name == "" then (InviteResp.badRequest, st)
    else
      match alookup st.usernames (lowerStr name) with
      | Option.none => (InviteResp.notFound, st)
      | some targetId =>
        if st.members.contains targetId then (InviteResp.conflict, st)
        else (InviteResp.okDone,
          { st with invites := saddSet st.invites targetId,
                    userInvites := saddAssoc st.userInvites targetId gid })

theorem saddSet_contains (s : List String) (x : String) :
    (saddSet s x).contains x = true := by
  unfold saddSet
  by_cases h : s.contains x = true
  · have hm : x ∈ s := by simpa using h
    simp [hm]
  · have hm : x ∉ s := by simpa using h
    simp [hm]

theorem saddSet_mem (s : List String) (x : String) : x ∈ saddSet s x := by
  simpa using saddSet_contains s x

theorem saddAssoc_lookup (m : List (String × List String)) (k x : String) :
    ∃ s, alookup (saddAssoc m k x) k = some s ∧ s.contains x = true := by
  unfold saddAssoc
  cases h : alookup m k with
  | none => exact ⟨[x], by rw [alookup_aset_self], by simp⟩
  | some s => exact ⟨saddSet s x, by rw [alookup_aset_self], saddSet_contains s x⟩

/-- C10: the invite handler performs no authorization check on the
requester.  Whenever the target username resolves to a user who is not
already a member, the invite succeeds, the target lands in the group's
invite set and the group in the target's pending-invite index — and the
whole outcome is identical for every possible requester (member, owner
or complete outsider alike). -/
theorem invite_no_authorization (st : InviteState) (requester gid name tid : String)
    (hname : (name == "") = false)
    (hres : alookup st.usernames (lowerStr name) = some tid)
    (hnm : st.members.contains tid = false) :
    (inviteF st requester gid (some name)).1 = InviteResp.okDone ∧
    ((inviteF st requester gid (some name)).2.invites.contains tid) = true ∧
    (((alookup (inviteF st requester gid (some name)).2.userInvites tid).getD
        []).contains gid) = true ∧
    (∀ requester2 : String,
      inviteF st requester2 gid (some name) = inviteF st requester gid (some name)) := by
  have hnm' : tid ∉ st.members := by simpa using hnm
  refine ⟨?_, ?_, ?_, fun _ => rfl⟩
  · simp [inviteF, hname, hres, hnm']
  · simp [inviteF, hname, hres, hnm', saddSet_mem]
  · simp only [inviteF, hname, Bool.false_eq_true, if_false, hres]
    rw [if_neg (by simpa using hnm : ¬(st.members.contains tid = true))]
    obtain ⟨s, hs, hc⟩ := saddAssoc_lookup st.userInvites tid gid
    simp only [hs, Option.getD_some]
    exact hc

def stInvW : InviteState :=
  { usernames := [("tina", "u7")], members := ["owner1"], invites := []
    userInvites := [] }

theorem invite_no_authorization_witness :
    ("tina" == "") = false ∧
    alookup stInvW.usernames (lowerStr "tina") = some "u7" ∧
    stInvW.members.contains "u7" = false ∧
    ((inviteF stInvW "outsider" "g1" (some "tina")).2.invites.contains "u7") = true :=
  ⟨by decide, by decide, by decide,
   (invite_no_authorization stInvW "outsider" "g1" "tina" "u7"
      (by decide) (by decide) (by decide)).2.1⟩

/-! ## C9. Counter tasks (src/App.tsx, final revision)

`handleToggleTask`'s counter branch (lines 627-640) and
`handleCreateTask` (lines 679-696). -/

/-- The counter branch of `handleToggleTask` (src/App.tsx lines
630-637): `count = (t.count || 0) + 1`, a fresh log entry is prepended,
and `completedAt` is stamped. -/
def counterIncrement (e : LogEntry) (now : Nat) (t : Task) : Task :=
  { t with count := some (t.count.getD 0 + 1)
           log := some (e :: t.log.getD [])
           completedAt := some now }

/-- `handleCreateTask` (src/App.tsx lines 681-691): a new task starts
with `count: 0, log: []`. -/
def mkNewTask (ty : TaskType) (idv title desc : String) (now : Nat) : Task :=
  { id := idv, type := some ty, title := title, description := desc
    isCompleted := false, completedAt := Option.none, createdAt := now
    count := some 0, log := some [] }

/-- Modelled from the spec: the owner-initiated log-entry-delete
operation ("log entries may be individually removed by the owner, which
must decrement the count accordingly") is not present in the files under
src/ (only the `entryDeleted` toast translations reference it), so it is
modelled from the spec's words: removing an existing entry from the log
also decrements the count by one; deleting a non-existent entry changes
nothing. -/
def deleteLogEntry (eid : String) (t : Task) : Task :=
  let entries := t.log.getD []
  if entries.any (fun e => e.id == eid) then
    { t with log := some (entries.eraseP (fun e => e.id == eid))
             count := some (t.count.getD 0 - 1) }
  else t

/-- The operations of a counter task's lifecycle after creation. -/
inductive CounterOp : Type
  | increment (e : LogEntry) (now : Nat)
  | deleteEntry (eid : String)

def applyCounterOp (t : Task) : CounterOp → Task
  | CounterOp.increment e now => counterIncrement e now t
  | CounterOp.deleteEntry eid => deleteLogEntry eid t

def runCounterOps (t : Task) (ops : List CounterOp) : Task :=
  ops.foldl applyCounterOp t

/-- The counter invariant: `count == length(log)` (with the JS
`|| 0` / `|| []` defaulting). -/
def countLogAgree (t : Task) : Prop :=
  t.count.getD 0 = (t.log.getD []).length

theorem applyCounterOp_agree (t : Task) (op : CounterOp)
    (h : countLogAgree t) : countLogAgree (applyCounterOp t op) := by
  cases op with
  | increment e now =>
    simp only [applyCounterOp, counterIncrement, countLogAgree,
      Option.getD_some, List.length_cons] at h ⊢
    omega
  | deleteEntry eid =>
    simp only [applyCounterOp]
    unfold deleteLogEntry
    by_cases hc : (t.log.getD []).any (fun e => e.id == eid) = true
    · simp only [hc, if_true, countLogAgree, Option.getD_some]
      obtain ⟨e, he, hpe⟩ := List.any_eq_true.mp hc
      rw [List.length_eraseP_of_mem he hpe]
      unfold countLogAgree at h
      omega
    · simp only [hc, Bool.false_eq_true, if_false]
      exact h

theorem runCounterOps_agree (t : Task) (ops : List CounterOp)
    (h : countLogAgree t) : countLogAgree (runCounterOps t ops) := by
  induction ops generalizing t with
  | nil => simpa [runCounterOps] using h
  | cons op rest ih =>
    rw [runCounterOps, List.foldl_cons]
    exact ih (applyCounterOp t op) (applyCounterOp_agree t op h)

/-- C9: a counter task starts at creation with `count = 0` and an empty
log, each increment prepends exactly one log entry while adding exactly
one to the count, and each log-entry removal drops one entry while
subtracting one; hence after every sequence of increment and
log-entry-delete operations the count equals the length of the log. -/
theorem counter_count_eq_log_length (idv title desc : String) (now : Nat)
    (ops : List CounterOp) :
    countLogAgree (runCounterOps (mkNewTask TaskType.counter idv title desc now) ops) :=
  runCounterOps_agree _ ops (by simp [mkNewTask, countLogAgree])

end GrooveTask
